import Mathlib

/-!
# IMPaCT example drivers: `custom.cpp` and `van_der_pol.cpp`

A shallow embedding of the two C++ example files and the properties checked
about them.

Conventions of the embedding.

* An Armadillo `vec` and a C array `double *` are lists; `v[i]` is the
  bounds-checked read `v[i]?`, and a function that reads (or writes) outside a
  vector returns `none`.  Armadillo's `operator[]` performs no bounds check, so
  `none` stands for the undefined behaviour of the C++ program.
* `double` arithmetic is read over an arbitrary field `α`; the transcendental
  library functions `exp`, `sqrt` and the constant `M_PI` are parameters, which
  are instantiated with `Real.exp`, `Real.sqrt` and `Real.pi` in the theorems.
  `pow(a, 2.0)` is `a ^ 2`.
-/

namespace IMPaCT

/-! ## `custom.cpp` -/

/-- The fields of the `customParams` record that `customPDF` copies out. -/
structure customParams (α : Type) where
  mean : List α
  state_start : List α
  input : List α
  lb : List α
  ub : List α
  eta : List α

/-- Dot product of a matrix row with a vector. -/
def dot {α : Type} [Field α] (row v : List α) : α :=
  (List.zipWith (fun a b => a * b) row v).sum

/-- Armadillo `A * v` for a matrix given by its rows: a size mismatch between
the number of columns and the length of `v` is an error. -/
def matVec {α : Type} [Field α] (A : List (List α)) (v : List α) : Option (List α) :=
  if A.all (fun row => row.length == v.length) then some (A.map fun row => dot row v) else none

/-- The constant `mat A1 = {{0.1, 0.9}, {0.8, 0.2}}`. -/
def A1 {α : Type} [Field α] : List (List α) := [[0.1, 0.9], [0.8, 0.2]]

/-- The constant `vec sigma1 = {0.3, 0.2}`. -/
def sigma1 {α : Type} [Field α] : List α := [0.3, 0.2]

/-- The constant `mat A2 = {{0.8, 0.2}, {0.1, 0.9}}`. -/
def A2 {α : Type} [Field α] : List (List α) := [[0.8, 0.2], [0.1, 0.9]]

/-- The constant `vec sigma2 = {0.2, 0.1}`. -/
def sigma2 {α : Type} [Field α] : List α := [0.2, 0.1]

/-- The constant `vec bernoulli_selection = {0.7, 0.3}`. -/
def bernoulli_selection {α : Type} [Field α] : List α := [0.7, 0.3]

/-- The factor one loop iteration multiplies into the accumulator:
`exp(-0.5 * pow(xi - mi, 2.0) / pow(si, 2.0)) / sqrt(2 * M_PI * pow(si, 2.0))`. -/
def pdfFactor {α : Type} [Field α] (exp sqrt : α → α) (pi : α) (xi mi si : α) : α :=
  exp ((-0.5) * (xi - mi) ^ 2 / si ^ 2) / sqrt (2 * pi * si ^ 2)

/-- The loop `acc = 1.0; for (i = 0; i < dim; ++i) acc *= factor(x[i], mode_mean[i], sigma[i]);`. -/
def modePdf {α : Type} [Field α] (exp sqrt : α → α) (pi : α)
    (x mode_mean sigma : List α) (dim : Nat) : Option α :=
  (List.range dim).foldlM
    (fun acc i => do
      let xi ← x[i]?
      let mi ← mode_mean[i]?
      let si ← sigma[i]?
      pure (acc * pdfFactor exp sqrt pi xi mi si))
    1

/-- The function `customPDF(double *x, size_t dim, void *params)`. -/
def customPDF {α : Type} [Field α] (exp sqrt : α → α) (pi : α)
    (x : List α) (dim : Nat) (params : customParams α) : Option α := do
  let mean := params.mean
  let _state_start := params.state_start
  let _input := params.input
  let _lb := params.lb
  let _ub := params.ub
  let _eta := params.eta
  let mode1_mean ← matVec A1 mean
  let mode2_mean ← matVec A2 mean
  let mode1_pdf ← modePdf exp sqrt pi x mode1_mean sigma1 dim
  let mode2_pdf ← modePdf exp sqrt pi x mode2_mean sigma2 dim
  let w0 ← (bernoulli_selection : List α)[0]?
  let w1 ← (bernoulli_selection : List α)[1]?
  pure (w0 * mode1_pdf + w1 * mode2_pdf)

/-- The one-dimensional Gaussian density with mean `μ` and standard deviation
`σ`, in its textbook form `1 / (σ √(2π)) · exp (-(x - μ)² / (2 σ²))`. -/
def gaussianDensity {α : Type} [Field α] (exp sqrt : α → α) (pi : α) (μ σ x : α) : α :=
  1 / (σ * sqrt (2 * pi)) * exp (-((x - μ) ^ 2) / (2 * σ ^ 2))

/-- The mixture the claim describes, for a two-component point `x` and a
two-component `mean`: `0.7 * p1(x) + 0.3 * p2(x)`, where `p1` is the product
over `i ∈ {0, 1}` of the Gaussian density at `x i` with mean `(A1 * mean) i` and
standard deviation `sigma1 i`, and `p2` the same with `A2` and `sigma2`. -/
def mixtureSpec {α : Type} [Field α] (exp sqrt : α → α) (pi : α) (x mean : Fin 2 → α) : α :=
  0.7 * (∏ i : Fin 2, gaussianDensity exp sqrt pi
      (Matrix.mulVec !![0.1, 0.9; 0.8, 0.2] mean i) (![0.3, 0.2] i) (x i)) +
  0.3 * (∏ i : Fin 2, gaussianDensity exp sqrt pi
      (Matrix.mulVec !![0.8, 0.2; 0.1, 0.9] mean i) (![0.2, 0.1] i) (x i))

/-! ## `van_der_pol.cpp` -/

/-- The constant `const int dim_x = 2;`. -/
def dim_x : Nat := 2

/-- The constant `const int dim_u = 1;`. -/
def dim_u : Nat := 1

/-- The constant `const int dim_w = 0;`. -/
def dim_w : Nat := 0

/-- The constant `const vec ss_lb = {-3.92, -3.92};`. -/
def ss_lb {α : Type} [Field α] : List α := [-3.92, -3.92]

/-- The constant `const vec ss_ub = {3.92, 3.92};`. -/
def ss_ub {α : Type} [Field α] : List α := [3.92, 3.92]

/-- The constant `const vec ss_eta = {0.16, 0.16};`. -/
def ss_eta {α : Type} [Field α] : List α := [0.16, 0.16]

/-- The constant `const vec is_lb = {-1};`. -/
def is_lb {α : Type} [Field α] : List α := [-1]

/-- The constant `const vec is_ub = {1};`. -/
def is_ub {α : Type} [Field α] : List α := [1]

/-- The constant `const vec is_eta = {0.2};`. -/
def is_eta {α : Type} [Field α] : List α := [0.2]

/-- The lambda `target_condition`:
`(ss[0] >= -1.32 && ss[0] <= -0.78) && (ss[1] >= -2.82 && ss[1] <= -2.08)`,
with the short-circuit evaluation of `&&`. -/
def target_condition {α : Type} [LinearOrderedField α] (ss : List α) : Option Bool := do
  let a : α ← ss[0]?
  if a ≥ -1.32 then
    let b : α ← ss[0]?
    if b ≤ -0.78 then
      let c : α ← ss[1]?
      if c ≥ -2.82 then
        let d : α ← ss[1]?
        pure (decide (d ≤ -2.08))
      else pure false
    else pure false
  else pure false

/-- The assignment `v[i] = a` to a component of a vector. -/
def vecWrite {α : Type} (v : List α) (i : Nat) (a : α) : Option (List α) :=
  if i < v.length then some (v.set i a) else none

/-- The lambda `dynamics`, index for index as the source writes it:
```
float sampling_time = 0.1;
vec xx(dim_x);
xx[0] = x[1] + x[2] * sampling_time;
xx[1] = x[2] + (-x[1] + (1 - x[1]) * (1 - x[1]) * x[2]) * sampling_time + u[1];
return xx;
```
-/
def dynamics {α : Type} [Field α] (x u : List α) : Option (List α) := do
  let sampling_time : α := 0.1
  let xx : List α := List.replicate dim_x 0
  let a ← x[1]?
  let b ← x[2]?
  let xx ← vecWrite xx 0 (a + b * sampling_time)
  let c ← x[2]?
  let d ← x[1]?
  let e ← x[1]?
  let f ← x[1]?
  let g ← x[2]?
  let w ← u[1]?
  let xx ← vecWrite xx 1 (c + (-d + (1 - e) * (1 - f) * g) * sampling_time + w)
  pure xx

/-- The forward-Euler step of the controlled Van der Pol oscillator with
sampling time `0.1`, as the claim states it: `x1`, `x2` the first and second
component of the state, `u1` the only component of the input. -/
def vanDerPolEuler {α : Type} [Field α] (x1 x2 u1 : α) : List α :=
  [x1 + 0.1 * x2, x2 + 0.1 * (-x1 + (1 - x1 ^ 2) * x2) + u1]

/-- The bounds of the dimensions of a space: the triples (lower, upper, step). -/
def dimensionBounds {α : Type} (lb ub eta : List α) : List (α × α × α) :=
  List.zip lb (List.zip ub eta)

/-- The dimension-bounds invariant of the data model for one dimension with
`cells` cells: `lower < upper`, `step > 0` and `(upper - lower) / step = cells`. -/
def boundsInvariant {α : Type} [LinearOrderedField α] (cells : Nat) (t : α × α × α) : Prop :=
  t.1 < t.2.1 ∧ 0 < t.2.2 ∧ (t.2.1 - t.1) / t.2.2 = cells

/-- The condition of `InvalidBoundsError`: `lower ≥ upper` or `step ≤ 0`. -/
def invalidBounds {α : Type} [LinearOrderedField α] (t : α × α × α) : Prop :=
  t.1 ≥ t.2.1 ∨ t.2.2 ≤ 0

instance {α : Type} [LinearOrderedField α] (cells : Nat) (t : α × α × α) :
    Decidable (boundsInvariant cells t) := by
  unfold boundsInvariant; infer_instance

instance {α : Type} [LinearOrderedField α] (t : α × α × α) : Decidable (invalidBounds t) := by
  unfold invalidBounds; infer_instance

/-- An axis-aligned cell: its lower and upper corner. -/
structure Cell (α : Type) where
  lower : List α
  upper : List α

/-- Modelled from the spec: the Grid Builder (`setStateSpace`, not among the
source files) tiles the box by uniform cells; the cell with per-dimension
indices `k` spans `[lb + k * eta, lb + (k + 1) * eta]` in every dimension. -/
def gridCell {α : Type} [Field α] (lb eta : List α) (k : List Nat) : Cell α where
  lower := List.zipWith (fun (le : α × α) (j : Nat) => le.1 + j * le.2) (List.zip lb eta) k
  upper := List.zipWith (fun (le : α × α) (j : Nat) => le.1 + (j + 1) * le.2) (List.zip lb eta) k

/-- A point lies in a cell: between the corners in every dimension. -/
def Cell.contains {α : Type} [LinearOrderedField α] (c : Cell α) (pt : List α) : Prop :=
  List.Forall₂ (fun l p => l ≤ p) c.lower pt ∧ List.Forall₂ (fun p u => p ≤ u) pt c.upper

/-- Modelled from the spec: the Region Labeler (`setTargetSpace`, not among the
source files) labels a cell `target` only if the entire cell lies inside the
region, that is, the predicate holds at every point of the cell. -/
def labelledTarget {α : Type} [LinearOrderedField α] (pred : List α → Option Bool)
    (c : Cell α) : Prop :=
  ∀ pt, c.contains pt → pred pt = some true

/-! ## The controller synthesis (`IMDP.h`, called by the driver, not among the source files) -/

/-- The label of a state cell. -/
inductive Label where
  | normal
  | target
  | avoid
  deriving DecidableEq

/-- Modelled from the spec: the Interval Markov Decision Process that the
Controller Synthesizer (`finiteHorizonReachControllerSorted`, whose
implementation is not among the source files) works on.  There are `numCells`
state cells, each with a label, and for every (source cell, input cell) a row of
probability intervals `[lowerProb, upperProb]` over the destinations
`0, …, numCells + 1`: destination `d < numCells` is the state cell `d`,
destination `numCells` is the `target` aggregate and `numCells + 1` the `avoid`
aggregate. -/
structure IMDP where
  numCells : Nat
  label : Nat → Label
  lowerProb : Nat → Nat → Nat → ℚ
  upperProb : Nat → Nat → Nat → ℚ

/-- The destinations of a row: every state cell, then the two aggregates. -/
def IMDP.dests (M : IMDP) : List Nat := List.range (M.numCells + 2)

/-- Modelled from the spec: the invariant of the interval transition entries
(data model, checked by the IMDP Assembler): `0 ≤ lowerProb ≤ upperProb ≤ 1`
for every destination, and for a fixed (source, input) the lower bounds sum to
at most `1` and the upper bounds to at least `1`. -/
def IMDP.Valid (M : IMDP) (inputs : List Nat) : Prop :=
  ∀ s, s < M.numCells → ∀ a, a ∈ inputs →
    (∀ d, d ∈ M.dests →
      0 ≤ M.lowerProb s a d ∧ M.lowerProb s a d ≤ M.upperProb s a d ∧ M.upperProb s a d ≤ 1) ∧
    (M.dests.map (M.lowerProb s a)).sum ≤ 1 ∧
    1 ≤ (M.dests.map (M.upperProb s a)).sum

/-- Modelled from the spec: the value of a destination under the value function
`V` of the state cells; the `target` aggregate is worth `1`, the `avoid`
aggregate `0`. -/
def IMDP.destValue (M : IMDP) (V : Nat → ℚ) (d : Nat) : ℚ :=
  if d < M.numCells then V d else if d = M.numCells then 1 else 0

/-- Modelled from the spec: the order in which the destinations are served,
"stable sort by value, ties broken by cell index": ascending value for the
pessimistic case, descending value for the optimistic case. -/
def precedes (pessimistic : Bool) (val : Nat → ℚ) (i j : Nat) : Prop :=
  if pessimistic then val i < val j ∨ (val i = val j ∧ i ≤ j)
  else val j < val i ∨ (val i = val j ∧ i ≤ j)

instance (pessimistic : Bool) (val : Nat → ℚ) : DecidableRel (precedes pessimistic val) := by
  intro i j
  unfold precedes
  infer_instance

/-- The destinations sorted by `precedes`. -/
def sortedDests (pessimistic : Bool) (val : Nat → ℚ) (ds : List Nat) : List Nat :=
  ds.insertionSort (precedes pessimistic val)

/-- Modelled from the spec: the greedy assignment of probability mass.  Every
destination holds its lower bound; the mass `budget` that is left is handed out
along the sorted order, each destination being raised towards its upper bound
for as long as mass remains. -/
def assignMass (lo hi : Nat → ℚ) : ℚ → List Nat → List (Nat × ℚ)
  | _, [] => []
  | budget, d :: ds =>
    (d, lo d + min (hi d - lo d) budget) ::
      assignMass lo hi (budget - min (hi d - lo d) budget) ds

/-- The expected value of `val` under an assignment of probabilities to destinations. -/
def expectation (val : Nat → ℚ) (ps : List (Nat × ℚ)) : ℚ :=
  (ps.map fun dp => dp.2 * val dp.1).sum

/-- Modelled from the spec: the extremal expectation of the successor value over
the interval row of (source `s`, input `a`): worst case when `pessimistic`, best
case otherwise, computed by sorting and greedy assignment. -/
def IMDP.extremalExpectation (M : IMDP) (pessimistic : Bool) (V : Nat → ℚ) (s a : Nat) : ℚ :=
  expectation (M.destValue V)
    (assignMass (M.lowerProb s a) (M.upperProb s a)
      (1 - (M.dests.map (M.lowerProb s a)).sum)
      (sortedDests pessimistic (M.destValue V) M.dests))

/-- The maximum of `f` over a list of inputs (`0` when there is no input). -/
def maxOver (f : Nat → ℚ) : List Nat → ℚ
  | [] => 0
  | a :: as => as.foldl (fun m b => max m (f b)) (f a)

/-- Modelled from the spec: one backward-induction step at the state cell `s`:
target cells keep the value `1`, avoid cells the value `0`, and any other cell
takes the maximum over the available inputs of the extremal expectation. -/
def IMDP.bellmanStep (M : IMDP) (pessimistic : Bool) (inputs : List Nat) (V : Nat → ℚ)
    (s : Nat) : ℚ :=
  match M.label s with
  | Label.target => 1
  | Label.avoid => 0
  | Label.normal => maxOver (fun a => M.extremalExpectation pessimistic V s a) inputs

/-- Modelled from the spec: the value function after `k` steps; at horizon `0`
it is the indicator of the target cells. -/
def IMDP.valueAt (M : IMDP) (pessimistic : Bool) (inputs : List Nat) : Nat → Nat → ℚ
  | 0, s => if M.label s = Label.target then 1 else 0
  | k + 1, s => M.bellmanStep pessimistic inputs (M.valueAt pessimistic inputs k) s

/-- Modelled from the spec: `finiteHorizonReachControllerSorted(pessimistic, N)`,
the value the finite-horizon synthesis computes for every state cell after
exactly `N` steps (`true` = pessimistic, `false` = optimistic). -/
def IMDP.finiteHorizonReachControllerSorted (M : IMDP) (inputs : List Nat)
    (pessimistic : Bool) (N : Nat) : List ℚ :=
  (List.range M.numCells).map (M.valueAt pessimistic inputs N)

instance (M : IMDP) (inputs : List Nat) : Decidable (M.Valid inputs) := by
  unfold IMDP.Valid IMDP.dests
  infer_instance

/-- A small IMDP: two state cells (cell `1` is a target), every interval `[1/5, 2/5]`. -/
def exampleIMDP : IMDP where
  numCells := 2
  label := fun s => if s = 1 then Label.target else Label.normal
  lowerProb := fun _ _ _ => 1 / 5
  upperProb := fun _ _ _ => 2 / 5

/-! # Theorems -/

/-! ### Properties of `customPDF` -/

/-- The exponent the code computes is the exponent of the Gaussian density. -/
theorem pdf_exponent (a b : ℝ) : (-0.5 : ℝ) * a / b = -a / (2 * b) := by
  rw [show (-0.5 : ℝ) = -(1 / 2) by norm_num]
  ring

/-- Over the reals a loop factor is Mathlib's Gaussian density with variance `s ^ 2`. -/
theorem pdfFactor_eq_gaussianPDFReal (x m s : ℝ) :
    pdfFactor Real.exp Real.sqrt Real.pi x m s =
      ProbabilityTheory.gaussianPDFReal m ⟨s ^ 2, sq_nonneg s⟩ x := by
  unfold pdfFactor ProbabilityTheory.gaussianPDFReal
  rw [div_eq_inv_mul]
  congr 2
  simp only [NNReal.coe_mk]
  exact pdf_exponent _ _

/-- Over the reals a loop factor is non-negative. -/
theorem pdfFactor_nonneg (x m s : ℝ) : 0 ≤ pdfFactor Real.exp Real.sqrt Real.pi x m s := by
  rw [pdfFactor_eq_gaussianPDFReal]
  exact ProbabilityTheory.gaussianPDFReal_nonneg _ _ _

/-- Over the reals and for a non-negative standard deviation a loop factor is
the textbook Gaussian density. -/
theorem pdfFactor_eq_gaussianDensity (x m s : ℝ) (hs : 0 ≤ s) :
    pdfFactor Real.exp Real.sqrt Real.pi x m s =
      gaussianDensity Real.exp Real.sqrt Real.pi m s x := by
  unfold pdfFactor gaussianDensity
  have h1 : Real.sqrt (2 * Real.pi * s ^ 2) = s * Real.sqrt (2 * Real.pi) := by
    rw [Real.sqrt_mul (by positivity), Real.sqrt_sq hs, mul_comm]
  rw [h1, pdf_exponent]
  ring

/-- The value `customPDF` returns on a two-component point and mean, `dim = 2`. -/
theorem customPDF_two (x0 x1 m0 m1 : ℝ) (p : customParams ℝ) (h : p.mean = [m0, m1]) :
    customPDF Real.exp Real.sqrt Real.pi [x0, x1] 2 p = some
      (0.7 * (pdfFactor Real.exp Real.sqrt Real.pi x0 (0.1 * m0 + 0.9 * m1) 0.3 *
          pdfFactor Real.exp Real.sqrt Real.pi x1 (0.8 * m0 + 0.2 * m1) 0.2) +
       0.3 * (pdfFactor Real.exp Real.sqrt Real.pi x0 (0.8 * m0 + 0.2 * m1) 0.2 *
          pdfFactor Real.exp Real.sqrt Real.pi x1 (0.1 * m0 + 0.9 * m1) 0.1)) := by
  simp [customPDF, h, matVec, A1, A2, dot, modePdf, List.range_succ, sigma1, sigma2,
    bernoulli_selection, List.foldlM]

/-- C1: for a point `x` with `dim = 2` components and params whose mean has 2
components, `customPDF` returns `0.7 * p1(x) + 0.3 * p2(x)`, the two-mode
Gaussian mixture `mixtureSpec` (arithmetic over the reals). -/
theorem customPDF_eq_mixture (x : List ℝ) (p : customParams ℝ)
    (hx : x.length = 2) (hm : p.mean.length = 2) :
    customPDF Real.exp Real.sqrt Real.pi x 2 p =
      some (mixtureSpec Real.exp Real.sqrt Real.pi
        (fun i => x.getD i 0) (fun i => p.mean.getD i 0)) := by
  obtain ⟨x0, x1, rfl⟩ := List.length_eq_two.mp hx
  obtain ⟨m0, m1, hmean⟩ := List.length_eq_two.mp hm
  rw [customPDF_two x0 x1 m0 m1 p hmean, hmean]
  simp only [mixtureSpec, Fin.prod_univ_two, Matrix.mulVec, Matrix.dotProduct, Fin.sum_univ_two]
  rw [pdfFactor_eq_gaussianDensity _ _ _ (by norm_num), pdfFactor_eq_gaussianDensity _ _ _ (by norm_num),
    pdfFactor_eq_gaussianDensity _ _ _ (by norm_num), pdfFactor_eq_gaussianDensity _ _ _ (by norm_num)]
  simp

/-- Witness of `customPDF_eq_mixture` at `x = (1, 2)`, `mean = (0, 1)`. -/
theorem customPDF_eq_mixture_witness :
    ([1, 2] : List ℝ).length = 2 ∧
    (customParams.mk [0, 1] [] [] [] [] [] : customParams ℝ).mean.length = 2 ∧
    customPDF Real.exp Real.sqrt Real.pi [1, 2] 2 (customParams.mk [0, 1] [] [] [] [] []) =
      some (mixtureSpec Real.exp Real.sqrt Real.pi
        (fun i => ([1, 2] : List ℝ).getD i 0) (fun i => ([0, 1] : List ℝ).getD i 0)) :=
  ⟨rfl, rfl, customPDF_eq_mixture [1, 2] (customParams.mk [0, 1] [] [] [] [] []) rfl rfl⟩

/-- One more loop iteration: the loop up to `n + 1` is the loop up to `n`
followed by the reads and the multiplication of iteration `n`. -/
theorem modePdf_succ {α : Type} [Field α] (exp sqrt : α → α) (pi : α)
    (x mm sg : List α) (n : Nat) :
    modePdf exp sqrt pi x mm sg (n + 1) =
      (modePdf exp sqrt pi x mm sg n).bind (fun acc =>
        (x[n]?).bind fun xi => (mm[n]?).bind fun mi => (sg[n]?).bind fun si =>
          some (acc * pdfFactor exp sqrt pi xi mi si)) := by
  simp only [modePdf, List.range_succ, List.foldlM_append, List.foldlM_cons, List.foldlM_nil]
  cases List.foldlM (fun acc i => do
      let xi ← x[i]?
      let mi ← mm[i]?
      let si ← sg[i]?
      pure (acc * pdfFactor exp sqrt pi xi mi si)) 1 (List.range n) with
  | none => rfl
  | some acc =>
    cases x[n]? <;> cases mm[n]? <;> cases sg[n]? <;> rfl

/-- The loop succeeds with a non-negative product when every vector it reads
holds at least `dim` components. -/
theorem modePdf_nonneg (x mm sg : List ℝ) (dim : Nat)
    (hx : dim ≤ x.length) (hm : dim ≤ mm.length) (hs : dim ≤ sg.length) :
    ∃ r, modePdf Real.exp Real.sqrt Real.pi x mm sg dim = some r ∧ 0 ≤ r := by
  induction dim with
  | zero => exact ⟨1, rfl, zero_le_one⟩
  | succ n ih =>
    obtain ⟨r, hr, hr0⟩ := ih (Nat.le_of_succ_le hx) (Nat.le_of_succ_le hm) (Nat.le_of_succ_le hs)
    refine ⟨r * pdfFactor Real.exp Real.sqrt Real.pi (x.get ⟨n, hx⟩) (mm.get ⟨n, hm⟩)
      (sg.get ⟨n, hs⟩), ?_, mul_nonneg hr0 (pdfFactor_nonneg _ _ _)⟩
    rw [modePdf_succ, hr]
    simp [List.getElem?_eq_getElem, Nat.lt_of_succ_le hx, Nat.lt_of_succ_le hm,
      Nat.lt_of_succ_le hs]

/-- C2: for every point `x`, every `dim ≤ 2` with `x` holding at least `dim`
components, and every params whose mean has 2 components, `customPDF` returns a
value and that value is `≥ 0` (arithmetic over the reals). -/
theorem customPDF_nonneg (x : List ℝ) (dim : Nat) (p : customParams ℝ)
    (hd : dim ≤ 2) (hx : dim ≤ x.length) (hm : p.mean.length = 2) :
    ∃ r, customPDF Real.exp Real.sqrt Real.pi x dim p = some r ∧ 0 ≤ r := by
  obtain ⟨m0, m1, hmean⟩ := List.length_eq_two.mp hm
  obtain ⟨r1, h1, hr1⟩ := modePdf_nonneg x [0.1 * m0 + 0.9 * m1, 0.8 * m0 + 0.2 * m1]
    sigma1 dim hx hd hd
  obtain ⟨r2, h2, hr2⟩ := modePdf_nonneg x [0.8 * m0 + 0.2 * m1, 0.1 * m0 + 0.9 * m1]
    sigma2 dim hx hd hd
  refine ⟨0.7 * r1 + 0.3 * r2, ?_, by positivity⟩
  have e1 : matVec A1 p.mean = some [0.1 * m0 + 0.9 * m1, 0.8 * m0 + 0.2 * m1] := by
    simp [matVec, A1, hmean, dot]
  have e2 : matVec A2 p.mean = some [0.8 * m0 + 0.2 * m1, 0.1 * m0 + 0.9 * m1] := by
    simp [matVec, A2, hmean, dot]
  simp [customPDF, e1, e2, h1, h2, bernoulli_selection]

/-- Witness of `customPDF_nonneg` at `dim = 1`, `x = (1, 2)`, `mean = (0, 1)`. -/
theorem customPDF_nonneg_witness :
    (1 ≤ 2) ∧ 1 ≤ ([1, 2] : List ℝ).length ∧
    ∃ r, customPDF Real.exp Real.sqrt Real.pi [1, 2] 1
      (customParams.mk [0, 1] [] [] [] [] []) = some r ∧ 0 ≤ r :=
  ⟨by decide, by decide,
    customPDF_nonneg [1, 2] 1 (customParams.mk [0, 1] [] [] [] [] []) (by decide) (by decide) rfl⟩

/-- C9: `customPDF` depends only on `x`, `dim` and `params->mean`: two params
with the same mean, whatever their `state_start`, `input`, `lb`, `ub` and `eta`,
give the same return value. -/
theorem customPDF_only_mean {α : Type} [Field α] (exp sqrt : α → α) (pi : α)
    (x : List α) (dim : Nat) (p q : customParams α) (h : p.mean = q.mean) :
    customPDF exp sqrt pi x dim p = customPDF exp sqrt pi x dim q := by
  simp only [customPDF, h]

/-- Witness of `customPDF_only_mean`: two params that agree on `mean` only. -/
theorem customPDF_only_mean_witness :
    customPDF Real.exp Real.sqrt Real.pi [1, 2] 2 (customParams.mk [0, 1] [] [] [] [] []) =
    customPDF Real.exp Real.sqrt Real.pi [1, 2] 2
      (customParams.mk [0, 1] [3, 4] [5] [-1, -1] [1, 1] [0.5, 0.5]) :=
  customPDF_only_mean Real.exp Real.sqrt Real.pi [1, 2] 2 _ _ rfl

/-- C7: for every params whose mean has 2 components, `customPDF` with
`dim = 2` is a normalised probability density in `x`: it returns a value at
every point of `ℝ²`, the value is non-negative, the function is integrable over
`ℝ²` and its integral is `1` (arithmetic over the reals). -/
theorem customPDF_normalised (p : customParams ℝ) (hm : p.mean.length = 2) :
    ∃ f : ℝ × ℝ → ℝ,
      (∀ z, customPDF Real.exp Real.sqrt Real.pi [z.1, z.2] 2 p = some (f z)) ∧
      (∀ z, 0 ≤ f z) ∧
      MeasureTheory.Integrable f MeasureTheory.volume ∧
      ∫ z, f z = 1 := by
  obtain ⟨m0, m1, hmean⟩ := List.length_eq_two.mp hm
  have hv : ∀ s : ℝ, 0 < s → (⟨s ^ 2, sq_nonneg s⟩ : NNReal) ≠ 0 := by
    intro s hs h
    have := congrArg NNReal.toReal h
    simp at this
    exact hs.ne (this.symm)
  have hfun : ∀ m s : ℝ, (fun x => pdfFactor Real.exp Real.sqrt Real.pi x m s) =
      ProbabilityTheory.gaussianPDFReal m ⟨s ^ 2, sq_nonneg s⟩ :=
    fun m s => funext fun x => pdfFactor_eq_gaussianPDFReal x m s
  have hint : ∀ m s : ℝ, MeasureTheory.Integrable
      (fun x => pdfFactor Real.exp Real.sqrt Real.pi x m s) MeasureTheory.volume := by
    intro m s
    rw [hfun]
    exact ProbabilityTheory.integrable_gaussianPDFReal _ _
  have hone : ∀ m s : ℝ, 0 < s → ∫ x, pdfFactor Real.exp Real.sqrt Real.pi x m s = 1 := by
    intro m s hs
    rw [hfun]
    exact ProbabilityTheory.integral_gaussianPDFReal_eq_one m (hv s hs)
  have hprod : ∀ a b c d : ℝ,
      ∫ z : ℝ × ℝ, pdfFactor Real.exp Real.sqrt Real.pi z.1 a b *
        pdfFactor Real.exp Real.sqrt Real.pi z.2 c d
        ∂(MeasureTheory.volume.prod MeasureTheory.volume) =
      (∫ x, pdfFactor Real.exp Real.sqrt Real.pi x a b) *
        ∫ y, pdfFactor Real.exp Real.sqrt Real.pi y c d :=
    fun a b c d => MeasureTheory.integral_prod_mul
      (fun x => pdfFactor Real.exp Real.sqrt Real.pi x a b)
      (fun y => pdfFactor Real.exp Real.sqrt Real.pi y c d)
  have I1 := ((hint (0.1 * m0 + 0.9 * m1) 0.3).prod_mul
    (hint (0.8 * m0 + 0.2 * m1) 0.2)).const_mul 0.7
  have I2 := ((hint (0.8 * m0 + 0.2 * m1) 0.2).prod_mul
    (hint (0.1 * m0 + 0.9 * m1) 0.1)).const_mul 0.3
  refine ⟨fun z =>
    0.7 * (pdfFactor Real.exp Real.sqrt Real.pi z.1 (0.1 * m0 + 0.9 * m1) 0.3 *
          pdfFactor Real.exp Real.sqrt Real.pi z.2 (0.8 * m0 + 0.2 * m1) 0.2) +
    0.3 * (pdfFactor Real.exp Real.sqrt Real.pi z.1 (0.8 * m0 + 0.2 * m1) 0.2 *
          pdfFactor Real.exp Real.sqrt Real.pi z.2 (0.1 * m0 + 0.9 * m1) 0.1),
    fun z => customPDF_two z.1 z.2 m0 m1 p hmean, ?_, ?_, ?_⟩
  · intro z
    exact add_nonneg
      (mul_nonneg (by norm_num) (mul_nonneg (pdfFactor_nonneg _ _ _) (pdfFactor_nonneg _ _ _)))
      (mul_nonneg (by norm_num) (mul_nonneg (pdfFactor_nonneg _ _ _) (pdfFactor_nonneg _ _ _)))
  · exact I1.add I2
  · beta_reduce
    rw [MeasureTheory.Measure.volume_eq_prod, MeasureTheory.integral_add I1 I2,
      MeasureTheory.integral_mul_left, MeasureTheory.integral_mul_left, hprod, hprod, hone _ _ (by norm_num), hone _ _ (by norm_num),
      hone _ _ (by norm_num)]
    norm_num

/-- Witness of `customPDF_normalised` at `mean = (0, 1)`. -/
theorem customPDF_normalised_witness :
    (customParams.mk [0, 1] [] [] [] [] [] : customParams ℝ).mean.length = 2 ∧
    ∃ f : ℝ × ℝ → ℝ,
      (∀ z, customPDF Real.exp Real.sqrt Real.pi [z.1, z.2] 2
        (customParams.mk [0, 1] [] [] [] [] []) = some (f z)) ∧
      (∀ z, 0 ≤ f z) ∧
      MeasureTheory.Integrable f MeasureTheory.volume ∧
      ∫ z, f z = 1 :=
  ⟨rfl, customPDF_normalised (customParams.mk [0, 1] [] [] [] [] []) rfl⟩

/-! ### Properties of the Van der Pol driver -/

/-- The reads of `dynamics` are in range exactly when `x` holds at least three
components and `u` at least two. -/
theorem dynamics_isSome_iff {α : Type} [Field α] (x u : List α) :
    (dynamics x u).isSome ↔ 3 ≤ x.length ∧ 2 ≤ u.length := by
  match x, u with
  | [], _ => simp [dynamics]
  | [_], _ => simp [dynamics]
  | [_, _], _ => simp [dynamics]
  | _ :: _ :: _ :: _, [] => simp [dynamics, vecWrite, dim_x]
  | _ :: _ :: _ :: _, [_] => simp [dynamics, vecWrite, dim_x]
  | _ :: _ :: _ :: _, _ :: _ :: _ => simp [dynamics, vecWrite, dim_x]

/-- C3 (refuted on the code): on a state with exactly `dim_x = 2` components and an input with
exactly `dim_u = 1` component the callable reads `x[2]` and `u[1]`, which do
not exist, so the run is undefined (`none`). -/
theorem dynamics_reads_out_of_range {α : Type} [Field α] (x0 x1 u0 : α) :
    dynamics [x0, x1] [u0] = none := by
  simp [dynamics]

/-- C8 (refuted on the code): at the state `(2, 1)` with input `(0)` the callable is undefined
(out-of-range reads), and even when the three reads `x[1]`, `x[2]`, `u[1]` are
given the values `2`, `1`, `0` the second component it computes is `0.9`, with
the factor `(1 - x1) * (1 - x1)`, while the forward-Euler step of the Van der Pol
oscillator gives `0.5`, with the factor `1 - x1 ^ 2`. -/
theorem dynamics_differs_from_euler :
    dynamics [(2 : ℚ), 1] [0] = none ∧
    dynamics [(0 : ℚ), 2, 1] [0, 0] = some [2.1, 0.9] ∧
    vanDerPolEuler (2 : ℚ) 1 0 = [2.1, 0.5] := by
  refine ⟨by simp [dynamics], ?_, ?_⟩
  · simp [dynamics, vecWrite, dim_x]
    norm_num
  · simp [vanDerPolEuler]
    norm_num

/-- C4: the grid parameters passed to `setStateSpace` and `setInputSpace`
satisfy the dimension-bounds invariant in every dimension (`lower < upper`,
`step > 0`, `(upper - lower) / step` equal to `49` for the two state dimensions
and to `10` for the input dimension), and none meets the `InvalidBoundsError`
condition. -/
theorem van_der_pol_bounds_valid {α : Type} [LinearOrderedField α] :
    (dimensionBounds (ss_lb : List α) ss_ub ss_eta).length = dim_x ∧
    (dimensionBounds (is_lb : List α) is_ub is_eta).length = dim_u ∧
    (∀ t ∈ dimensionBounds (ss_lb : List α) ss_ub ss_eta,
      boundsInvariant 49 t ∧ ¬ invalidBounds t) ∧
    (∀ t ∈ dimensionBounds (is_lb : List α) is_ub is_eta,
      boundsInvariant 10 t ∧ ¬ invalidBounds t) := by
  refine ⟨rfl, rfl, ?_, ?_⟩
  · intro t ht
    simp only [dimensionBounds, ss_lb, ss_ub, ss_eta, List.zip_cons_cons, List.zip_nil_right,
      List.mem_cons, List.mem_singleton, List.not_mem_nil, or_false, or_self] at ht
    subst ht
    simp only [boundsInvariant, invalidBounds]
    norm_num
  · intro t ht
    simp only [dimensionBounds, is_lb, is_ub, is_eta, List.zip_cons_cons, List.zip_nil_right,
      List.mem_cons, List.mem_singleton, List.not_mem_nil, or_false, or_self] at ht
    subst ht
    simp only [boundsInvariant, invalidBounds]
    norm_num

/-- C10: the target region is non-empty under the whole-cell labelling policy:
some cell of the `49 × 49` state grid (here the cell with indices `(17, 7)`,
spanning `[-1.20, -1.04] × [-2.80, -2.64]`) has every point satisfy
`target_condition`, so it is labelled `target`. -/
theorem target_region_nonempty {α : Type} [LinearOrderedField α] :
    ∃ k0 k1 : Nat, k0 < 49 ∧ k1 < 49 ∧
      labelledTarget (target_condition : List α → Option Bool)
        (gridCell ss_lb ss_eta [k0, k1]) := by
  refine ⟨17, 7, by decide, by decide, ?_⟩
  intro pt hpt
  obtain ⟨hlo, hhi⟩ := hpt
  simp only [gridCell, ss_lb, ss_eta, List.zip_cons_cons, List.zip_nil_right,
    List.zipWith_cons_cons, List.zipWith_nil_right] at hlo hhi
  match pt, hlo, hhi with
  | [p0, p1], hlo, hhi =>
    simp only [List.forall₂_cons, List.forall₂_nil_left_iff, and_true] at hlo hhi
    obtain ⟨l0, l1⟩ := hlo
    obtain ⟨u0, u1⟩ := hhi
    have a0 : p0 ≥ -1.32 := le_trans (by norm_num) l0
    have b0 : p0 ≤ -0.78 := le_trans u0 (by norm_num)
    have a1 : p1 ≥ -2.82 := le_trans (by norm_num) l1
    have b1 : p1 ≤ -2.08 := le_trans u1 (by norm_num)
    simp [target_condition, a0, b0, a1, b1]

/-! ### Properties of the controller synthesis -/

/-- The greedy assignment lists the destinations in the order it was given. -/
theorem assignMass_fst (lo hi : Nat → ℚ) (ds : List Nat) (b : ℚ) :
    (assignMass lo hi b ds).map Prod.fst = ds := by
  induction ds generalizing b with
  | nil => rfl
  | cons d ds ih => simp [assignMass, ih]

/-- The greedy assignment stays within the interval of every destination. -/
theorem assignMass_bounds (lo hi : Nat → ℚ) (ds : List Nat) (b : ℚ) (hb : 0 ≤ b)
    (h : ∀ d ∈ ds, lo d ≤ hi d) :
    ∀ x ∈ assignMass lo hi b ds, lo x.1 ≤ x.2 ∧ x.2 ≤ hi x.1 := by
  induction ds generalizing b with
  | nil => intro x hx; simp [assignMass] at hx
  | cons d ds ih =>
    intro x hx
    have hd : lo d ≤ hi d := h d (List.mem_cons_self _ _)
    have hmin : 0 ≤ min (hi d - lo d) b := le_min (by linarith) hb
    simp only [assignMass, List.mem_cons] at hx
    rcases hx with rfl | hx
    · exact ⟨by simpa using hmin, by
        have := min_le_left (hi d - lo d) b
        simp only
        linarith⟩
    · exact ih (b - min (hi d - lo d) b) (by linarith [min_le_right (hi d - lo d) b])
        (fun d' hd' => h d' (List.mem_cons_of_mem _ hd')) x hx

/-- The greedy assignment hands out the whole budget when the intervals have room for it. -/
theorem assignMass_total (lo hi : Nat → ℚ) (ds : List Nat) (b : ℚ) (hb : 0 ≤ b)
    (h : ∀ d ∈ ds, lo d ≤ hi d) (hroom : b ≤ (ds.map fun d => hi d - lo d).sum) :
    ((assignMass lo hi b ds).map fun x => x.2 - lo x.1).sum = b := by
  induction ds generalizing b with
  | nil =>
    simp only [List.map_nil, List.sum_nil] at hroom
    simp only [assignMass, List.map_nil, List.sum_nil]
    linarith
  | cons d ds ih =>
    have hd : lo d ≤ hi d := h d (List.mem_cons_self _ _)
    have hrest : 0 ≤ (ds.map fun d => hi d - lo d).sum :=
      List.sum_nonneg (by
        intro y hy
        obtain ⟨d', hd', rfl⟩ := List.mem_map.mp hy
        linarith [h d' (List.mem_cons_of_mem _ hd')])
    simp only [List.map_cons, List.sum_cons] at hroom
    have hb' : 0 ≤ b - min (hi d - lo d) b := by linarith [min_le_right (hi d - lo d) b]
    have hroom' : b - min (hi d - lo d) b ≤ (ds.map fun d => hi d - lo d).sum := by
      rcases le_total (hi d - lo d) b with hc | hc
      · rw [min_eq_left hc]; linarith
      · rw [min_eq_right hc]; linarith
    have := ih (b - min (hi d - lo d) b) hb'
      (fun d' hd' => h d' (List.mem_cons_of_mem _ hd')) hroom'
    simp only [assignMass, List.map_cons, List.sum_cons, this]
    ring

/-- Expectation of an assignment that starts with the pair `x`. -/
theorem expectation_cons (v : Nat → ℚ) (x : Nat × ℚ) (L : List (Nat × ℚ)) :
    expectation v (x :: L) = x.2 * v x.1 + expectation v L := by
  simp [expectation]

/-- The expectation does not depend on the order of the assignment. -/
theorem expectation_perm (v : Nat → ℚ) {L L' : List (Nat × ℚ)} (h : L.Perm L') :
    expectation v L = expectation v L' :=
  (h.map _).sum_eq

/-- The expectation is monotone in the value function when the probabilities
are non-negative. -/
theorem expectation_mono (v w : Nat → ℚ) (L : List (Nat × ℚ))
    (hp : ∀ x ∈ L, 0 ≤ x.2) (hvw : ∀ x ∈ L, v x.1 ≤ w x.1) :
    expectation v L ≤ expectation w L := by
  induction L with
  | nil => simp [expectation]
  | cons x L ih =>
    rw [expectation_cons, expectation_cons]
    have h1 := mul_le_mul_of_nonneg_left (hvw x (List.mem_cons_self _ _))
      (hp x (List.mem_cons_self _ _))
    have h2 := ih (fun y hy => hp y (List.mem_cons_of_mem _ hy))
      (fun y hy => hvw y (List.mem_cons_of_mem _ hy))
    linarith

/-- Minimality of the greedy assignment along an ascending order.  `L` is any
assignment within the intervals whose destinations are listed by ascending
value and which hands out the mass `b + e` above the lower bounds; the greedy
assignment of the budget `b` along the same order has an expectation that is
smaller by at least `e * m`, for any lower bound `m` of the values. -/
theorem assignMass_minimal (lo hi v : Nat → ℚ) (L : List (Nat × ℚ)) (b e m : ℚ)
    (hsorted : L.Pairwise (fun x y => v x.1 ≤ v y.1))
    (hbounds : ∀ x ∈ L, lo x.1 ≤ x.2 ∧ x.2 ≤ hi x.1)
    (hb : 0 ≤ b) (he : 0 ≤ e)
    (hsum : (L.map fun x => x.2 - lo x.1).sum = b + e)
    (hm : e = 0 ∨ ∀ x ∈ L, m ≤ v x.1) :
    expectation v (assignMass lo hi b (L.map Prod.fst)) + e * m ≤ expectation v L := by
  induction L generalizing b e m with
  | nil =>
    simp only [List.map_nil, List.sum_nil] at hsum
    have he0 : e = 0 := by linarith
    simp [assignMass, expectation, he0]
  | cons x L ih =>
    obtain ⟨hx, hL⟩ := List.pairwise_cons.mp hsorted
    obtain ⟨hlo, hhi⟩ := hbounds x (List.mem_cons_self _ _)
    have hrest : 0 ≤ (L.map fun y => y.2 - lo y.1).sum :=
      List.sum_nonneg (by
        intro z hz
        obtain ⟨y, hy, rfl⟩ := List.mem_map.mp hz
        linarith [(hbounds y (List.mem_cons_of_mem _ hy)).1])
    simp only [List.map_cons, List.sum_cons] at hsum
    have hb' : 0 ≤ b - min (hi x.1 - lo x.1) b := by
      linarith [min_le_right (hi x.1 - lo x.1) b]
    have he' : 0 ≤ e + min (hi x.1 - lo x.1) b - (x.2 - lo x.1) := by
      rcases le_total (hi x.1 - lo x.1) b with hc | hc
      · rw [min_eq_left hc]; linarith
      · rw [min_eq_right hc]; linarith
    have hIH := ih (b - min (hi x.1 - lo x.1) b)
      (e + min (hi x.1 - lo x.1) b - (x.2 - lo x.1)) (v x.1) hL
      (fun y hy => hbounds y (List.mem_cons_of_mem _ hy)) hb' he' (by linarith)
      (Or.inr hx)
    have hem : e * m ≤ e * v x.1 := by
      rcases hm with h0 | hm
      · simp [h0]
      · exact mul_le_mul_of_nonneg_left (hm x (List.mem_cons_self _ _)) he
    simp only [List.map_cons, assignMass]
    rw [expectation_cons, expectation_cons]
    simp only
    nlinarith [hIH, hem]

/-- A permutation of the image of a list under `f` is the image of a
permutation of the list. -/
theorem exists_perm_map_eq {β γ : Type} [DecidableEq β] (f : β → γ) :
    ∀ (l : List γ) (L : List β), l.Perm (L.map f) →
      ∃ K : List β, K.Perm L ∧ K.map f = l
  | [], L, h => by
    have hnil : L = [] := by
      have := h.length_eq
      simpa using this.symm
    subst hnil
    exact ⟨[], List.Perm.refl _, rfl⟩
  | c :: l, L, h => by
    have hc : c ∈ L.map f := h.subset (List.mem_cons_self _ _)
    obtain ⟨x, hxL, rfl⟩ := List.mem_map.mp hc
    have hL : L.Perm (x :: L.erase x) := List.perm_cons_erase hxL
    have h2 : (f x :: l).Perm (f x :: (L.erase x).map f) := h.trans (hL.map f)
    obtain ⟨K, hK, hmap⟩ := exists_perm_map_eq f l (L.erase x) h2.cons_inv
    exact ⟨x :: K, (hK.cons x).trans hL.symm, by simp [hmap]⟩

/-- The pessimistic order is total. -/
theorem precedes_total (val : Nat → ℚ) (i j : Nat) :
    precedes true val i j ∨ precedes true val j i := by
  simp only [precedes, if_true]
  rcases lt_trichotomy (val i) (val j) with h | h | h
  · exact Or.inl (Or.inl h)
  · rcases le_total i j with hij | hij
    · exact Or.inl (Or.inr ⟨h, hij⟩)
    · exact Or.inr (Or.inr ⟨h.symm, hij⟩)
  · exact Or.inr (Or.inl h)

/-- The pessimistic order is transitive. -/
theorem precedes_trans (val : Nat → ℚ) (i j k : Nat)
    (h1 : precedes true val i j) (h2 : precedes true val j k) : precedes true val i k := by
  simp only [precedes, if_true] at *
  rcases h1 with h1 | ⟨h1, h1'⟩ <;> rcases h2 with h2 | ⟨h2, h2'⟩
  · exact Or.inl (lt_trans h1 h2)
  · exact Or.inl (h2 ▸ h1)
  · exact Or.inl (h1 ▸ h2)
  · exact Or.inr ⟨h1.trans h2, le_trans h1' h2'⟩

/-- The pessimistic order lists the destinations by ascending value. -/
theorem sortedDests_pessimistic_ascending (val : Nat → ℚ) (ds : List Nat) :
    (sortedDests true val ds).Pairwise (fun i j => val i ≤ val j) := by
  haveI : IsTotal Nat (precedes true val) := ⟨precedes_total val⟩
  haveI : IsTrans Nat (precedes true val) := ⟨precedes_trans val⟩
  have h := List.sorted_insertionSort (precedes true val) ds
  refine List.Pairwise.imp ?_ h
  intro i j hij
  simp only [precedes, if_true] at hij
  rcases hij with h | ⟨h, _⟩
  · exact le_of_lt h
  · exact le_of_eq h

/-- Sorting permutes the destinations. -/
theorem sortedDests_perm (pessimistic : Bool) (val : Nat → ℚ) (ds : List Nat) :
    (sortedDests pessimistic val ds).Perm ds :=
  List.perm_insertionSort _ ds

/-- The sum of the interval widths is the difference of the sums of the bounds. -/
theorem sum_width (lo hi : Nat → ℚ) (ds : List Nat) :
    (ds.map fun d => hi d - lo d).sum = (ds.map hi).sum - (ds.map lo).sum := by
  induction ds with
  | nil => simp
  | cons d ds ih => simp only [List.map_cons, List.sum_cons, ih]; ring

/-- On one realizable interval row the pessimistic greedy expectation of a
value function is at most the optimistic greedy expectation of any pointwise
larger value function. -/
theorem row_pessimistic_le_optimistic (lo hi v w : Nat → ℚ) (ds : List Nat)
    (hrow : ∀ d ∈ ds, 0 ≤ lo d ∧ lo d ≤ hi d)
    (hlo : (ds.map lo).sum ≤ 1) (hhi : 1 ≤ (ds.map hi).sum)
    (hvw : ∀ d ∈ ds, v d ≤ w d) :
    expectation v (assignMass lo hi (1 - (ds.map lo).sum) (sortedDests true v ds)) ≤
      expectation w (assignMass lo hi (1 - (ds.map lo).sum) (sortedDests false w ds)) := by
  have hb : 0 ≤ 1 - (ds.map lo).sum := by linarith
  have hjs : (sortedDests false w ds).Perm ds := sortedDests_perm false w ds
  have his : (sortedDests true v ds).Perm ds := sortedDests_perm true v ds
  have hroom : 1 - (ds.map lo).sum ≤
      ((sortedDests false w ds).map fun d => hi d - lo d).sum := by
    rw [(hjs.map _).sum_eq, sum_width]
    linarith
  have hle : ∀ d ∈ sortedDests false w ds, lo d ≤ hi d :=
    fun d hd => (hrow d (hjs.subset hd)).2
  have hbd := assignMass_bounds lo hi (sortedDests false w ds) _ hb hle
  have htot := assignMass_total lo hi (sortedDests false w ds) _ hb hle hroom
  have hmem : ∀ x ∈ assignMass lo hi (1 - (ds.map lo).sum) (sortedDests false w ds),
      x.1 ∈ ds := by
    intro x hx
    have : x.1 ∈ (assignMass lo hi (1 - (ds.map lo).sum) (sortedDests false w ds)).map
        Prod.fst := List.mem_map_of_mem _ hx
    rw [assignMass_fst] at this
    exact hjs.subset this
  obtain ⟨K, hK, hKmap⟩ := exists_perm_map_eq Prod.fst (sortedDests true v ds)
    (assignMass lo hi (1 - (ds.map lo).sum) (sortedDests false w ds))
    (by rw [assignMass_fst]; exact his.trans hjs.symm)
  have hsorted : K.Pairwise (fun x y => v x.1 ≤ v y.1) := by
    have h := sortedDests_pessimistic_ascending v ds
    rw [← hKmap, List.pairwise_map] at h
    exact h
  have hmin := assignMass_minimal lo hi v K (1 - (ds.map lo).sum) 0 0 hsorted
    (fun x hx => hbd x (hK.subset hx)) hb le_rfl
    (by rw [(hK.map _).sum_eq, htot, add_zero]) (Or.inl rfl)
  rw [hKmap, zero_mul, add_zero] at hmin
  calc expectation v (assignMass lo hi (1 - (ds.map lo).sum) (sortedDests true v ds))
      ≤ expectation v K := hmin
    _ = expectation v (assignMass lo hi (1 - (ds.map lo).sum) (sortedDests false w ds)) :=
        expectation_perm v hK
    _ ≤ expectation w (assignMass lo hi (1 - (ds.map lo).sum) (sortedDests false w ds)) :=
        expectation_mono v w _
          (fun x hx => le_trans (hrow x.1 (hmem x hx)).1 (hbd x hx).1)
          (fun x hx => hvw x.1 (hmem x hx))

/-- The running maximum is monotone in the function and in its start value. -/
theorem foldl_max_mono (f g : Nat → ℚ) (l : List Nat) (m n : ℚ) (hmn : m ≤ n)
    (h : ∀ a ∈ l, f a ≤ g a) :
    l.foldl (fun m b => max m (f b)) m ≤ l.foldl (fun m b => max m (g b)) n := by
  induction l generalizing m n with
  | nil => exact hmn
  | cons a l ih =>
    simp only [List.foldl_cons]
    exact ih _ _ (max_le_max hmn (h a (List.mem_cons_self _ _)))
      (fun b hb => h b (List.mem_cons_of_mem _ hb))

/-- The maximum over the inputs is monotone in the function. -/
theorem maxOver_mono (f g : Nat → ℚ) (l : List Nat) (h : ∀ a ∈ l, f a ≤ g a) :
    maxOver f l ≤ maxOver g l := by
  cases l with
  | nil => exact le_rfl
  | cons a l =>
    exact foldl_max_mono f g l _ _ (h a (List.mem_cons_self _ _))
      (fun b hb => h b (List.mem_cons_of_mem _ hb))

/-- On a valid IMDP the pessimistic value of every state cell is at most its
optimistic value, at every horizon. -/
theorem valueAt_pessimistic_le_optimistic (M : IMDP) (inputs : List Nat)
    (hM : M.Valid inputs) (N : Nat) :
    ∀ s, s < M.numCells → M.valueAt true inputs N s ≤ M.valueAt false inputs N s := by
  induction N with
  | zero => intro s _; exact le_rfl
  | succ k ih =>
    intro s hs
    simp only [IMDP.valueAt, IMDP.bellmanStep]
    cases M.label s with
    | target => exact le_rfl
    | avoid => exact le_rfl
    | normal =>
      refine maxOver_mono _ _ inputs ?_
      intro a ha
      obtain ⟨hrow, hlo, hhi⟩ := hM s hs a ha
      refine row_pessimistic_le_optimistic _ _ _ _ M.dests
        (fun d hd => ⟨(hrow d hd).1, (hrow d hd).2.1⟩) hlo hhi ?_
      intro d _
      simp only [IMDP.destValue]
      split_ifs with h1
      · exact ih d h1
      · exact le_rfl
      · exact le_rfl

/-- C5: on the same (valid) IMDP, for every state cell, every list of
available inputs and every horizon `N`, the value computed with the pessimistic
flag is `≤` the value computed with the optimistic flag. -/
theorem pessimistic_le_optimistic (M : IMDP) (inputs : List Nat) (hM : M.Valid inputs)
    (N : Nat) :
    List.Forall₂ (fun p o => p ≤ o)
      (M.finiteHorizonReachControllerSorted inputs true N)
      (M.finiteHorizonReachControllerSorted inputs false N) := by
  simp only [IMDP.finiteHorizonReachControllerSorted, List.forall₂_map_left_iff,
    List.forall₂_map_right_iff, List.forall₂_same]
  intro s hs
  exact valueAt_pessimistic_le_optimistic M inputs hM N s (List.mem_range.mp hs)

/-- The small IMDP is valid for the single input `0`. -/
theorem exampleIMDP_valid : exampleIMDP.Valid [0] := by
  intro s _ a _
  refine ⟨fun d _ => ?_, ?_, ?_⟩
  · simp only [exampleIMDP]; norm_num
  · simp only [exampleIMDP, IMDP.dests]; norm_num [List.range_succ]
  · simp only [exampleIMDP, IMDP.dests]; norm_num [List.range_succ]

/-- Witness of `pessimistic_le_optimistic`: the small IMDP at the horizon
`N = 10` the Van der Pol driver requests. -/
theorem pessimistic_le_optimistic_witness :
    exampleIMDP.Valid [0] ∧
    List.Forall₂ (fun p o => p ≤ o)
      (exampleIMDP.finiteHorizonReachControllerSorted [0] true 10)
      (exampleIMDP.finiteHorizonReachControllerSorted [0] false 10) :=
  ⟨exampleIMDP_valid, pessimistic_le_optimistic exampleIMDP [0] exampleIMDP_valid 10⟩

end IMPaCT
